import Mathlib

/-!
Verification of the block-detection core of the `vscode-run-codeblock`
extension (source: `src/out/extension.js`).  The document is modelled as the
list of its lines (`List String`); every document a host editor produces has
at least one line, so theorems about whole-document indices carry a
`lines ≠ []` hypothesis and line numbers are natural numbers.  The runner
registry and the alias table are modelled as association lists, mirroring the
object literals in the source.
-/

namespace RunCodeBlock

/-- One entry of the runner registry: a command template (with a `{file}`
placeholder) and the temp-file extension, as in the `RUNNERS` object literal
of the source. -/
structure RunnerConfig where
  command : String
  ext : String
deriving Repr, DecidableEq

/-- The `RUNNERS` mapping of the source (extension.js lines 39-54), an object
literal keyed by canonical language id. -/
def RUNNERS : List (String × RunnerConfig) :=
  [("javascript", ⟨"node \"{file}\"", ".js"⟩),
   ("typescript", ⟨"npx ts-node \"{file}\"", ".ts"⟩),
   ("python", ⟨"python3 \"{file}\"", ".py"⟩),
   ("shellscript", ⟨"bash \"{file}\"", ".sh"⟩),
   ("ruby", ⟨"ruby \"{file}\"", ".rb"⟩),
   ("go", ⟨"go run \"{file}\"", ".go"⟩),
   ("rust", ⟨"rustc \"{file}\" -o \"{file}.out\" && \"{file}.out\"", ".rs"⟩),
   ("java", ⟨"java \"{file}\"", ".java"⟩),
   ("c", ⟨"gcc \"{file}\" -o \"{file}.out\" && \"{file}.out\"", ".c"⟩),
   ("cpp", ⟨"g++ \"{file}\" -o \"{file}.out\" && \"{file}.out\"", ".cpp"⟩),
   ("php", ⟨"php \"{file}\"", ".php"⟩),
   ("perl", ⟨"perl \"{file}\"", ".pl"⟩),
   ("lua", ⟨"lua \"{file}\"", ".lua"⟩),
   ("r", ⟨"Rscript \"{file}\"", ".R"⟩)]

/-- Host-document predicate `TextLine.isEmptyOrWhitespace`: the line is empty
or consists only of whitespace characters. -/
def isEmptyOrWhitespace (s : String) : Bool :=
  s.toList.all Char.isWhitespace

/-- The alias object literal inside `normalizeLangId` (extension.js
lines 63-74). -/
def aliases : List (String × String) :=
  [("js", "javascript"), ("ts", "typescript"), ("py", "python"),
   ("sh", "shellscript"), ("bash", "shellscript"), ("zsh", "shellscript"),
   ("rb", "ruby"), ("rs", "rust"), ("c++", "cpp"), ("cxx", "cpp")]

/-- Embeds `normalizeLangId` (extension.js lines 62-76): `aliases[lang] ?? lang`.
Note the source does not lower-case here; lower-casing happens in
`detectMarkdownLang` before this function is called. -/
def normalizeLangId (lang : String) : String :=
  (aliases.lookup lang).getD lang

/-- JavaScript `lineText.startsWith('```')` and the regex prefix `^` plus three
backticks: the first three characters of the line are backticks (modelled on
the character list; a line shorter than three characters never matches). -/
def startsWithTicks (s : String) : Bool :=
  s.toList.take 3 == "```".toList

/-- JavaScript `\w` character class (the source regexes carry no `u` flag, so
`\w` is exactly `[A-Za-z0-9_]`, which coincides with `Char.isAlphanum`). -/
def isWordChar (c : Char) : Bool :=
  c.isAlphanum || c == '_'

/-- The maximal leading run of word characters, i.e. what the greedy capture
group `(\w+)` of `/^(backtick backtick backtick)(\w+)/` captures. -/
def takeWordChars : List Char → List Char
  | [] => []
  | c :: cs => if isWordChar c then c :: takeWordChars cs else []

/-- JavaScript `String.prototype.toLowerCase`, restricted to the per-character
ASCII mapping (all strings this program feeds to it are `\w`-runs, hence
ASCII, where the two agree). -/
def toLowerCase (s : String) : String :=
  String.mk (s.toList.map Char.toLower)

/-- Embeds `detectMarkdownLang` (extension.js lines 57-60): match
`/^(three backticks)(\w+)/`; on success return the captured tag lower-cased,
otherwise `undefined`. -/
def detectMarkdownLang (line : String) : Option String :=
  if startsWithTicks line && !(takeWordChars (line.toList.drop 3)).isEmpty then
    some (toLowerCase (String.mk (takeWordChars (line.toList.drop 3))))
  else none

/-- The opening-fence test `/^(three backticks)(\w+)/.test(lineText)`
(extension.js line 95): three backticks at the start of the line followed
immediately by at least one word character. -/
def isOpenFence (line : String) : Bool :=
  startsWithTicks line && !(takeWordChars (line.toList.drop 3)).isEmpty

/-- The composite resolver actually applied to a fenced tag: the
`.toLowerCase()` inside `detectMarkdownLang` followed by `normalizeLangId`
(extension.js lines 59 and 97); this realizes the spec's
`resolve(rawTag)` contract (spec section 4.1). -/
def resolveTag (rawTag : String) : String :=
  normalizeLangId (toLowerCase rawTag)

/-- A detected block (the `CodeBlock` interface of the source): content
bounds, language, joined code text, and the line anchoring the code lens
(`lensLine`; the spec calls it `anchorLine`). -/
structure CodeBlock where
  startLine : Nat
  endLine : Nat
  languageId : String
  code : String
  lensLine : Nat
deriving Repr, DecidableEq

/-- Number of lines skipped by the inner `while` of `findMarkdownBlocks`
(extension.js lines 102-104): consecutive lines that do not start with three
backticks. -/
def countNotClosing : List String → Nat
  | [] => 0
  | l :: ls => if startsWithTicks l then 0 else countNotClosing ls + 1

/-- The `while` loop of `findMarkdownBlocks` (extension.js lines 93-115),
with the cursor `i` made explicit.  On an opening fence at index `i`, with
`k` the distance to the closing fence (or to end-of-document), the source
sets `startLine = i + 1`, `endLine = i + k`, pushes the block when
`endLine >= startLine` (`1 ≤ k`) and the language is registered, and resumes
scanning after the closing fence (`i + k + 2`, remaining lines
`ls.drop (k + 1)`). -/
def mdScan : List String → Nat → List CodeBlock
  | [], _ => []
  | l :: ls, i =>
    if isOpenFence l then
      (if 1 ≤ countNotClosing ls ∧
          (RUNNERS.lookup (normalizeLangId ((detectMarkdownLang l).getD "shellscript"))).isSome = true then
        [{ startLine := i + 1, endLine := i + countNotClosing ls,
           languageId := normalizeLangId ((detectMarkdownLang l).getD "shellscript"),
           code := String.intercalate "\n" (ls.take (countNotClosing ls)),
           lensLine := i }]
      else []) ++ mdScan (ls.drop (countNotClosing ls + 1)) (i + countNotClosing ls + 2)
    else
      mdScan ls (i + 1)
termination_by rest _ => rest.length
decreasing_by
  · simp only [List.length_cons, List.length_drop]
    omega
  · simp

/-- Embeds `findMarkdownBlocks` (extension.js lines 90-117). -/
def findMarkdownBlocks (lines : List String) : List CodeBlock :=
  mdScan lines 0

/-- A section of a plain source document, as accumulated by
`findSourceBlocks` (`sections.push({start, end})`); the source's field `end`
is renamed `stop` because `end` is a Lean keyword. -/
structure Section where
  start : Nat
  stop : Nat
deriving Repr, DecidableEq

/-- The inner `while` of `findSourceBlocks` (extension.js lines 139-144):
the length of the run of consecutive blank lines at the head of the list. -/
def countBlanks : List String → Nat
  | [] => 0
  | l :: ls => if isEmptyOrWhitespace l then countBlanks ls + 1 else 0

/-- The section-collecting `for` loop of `findSourceBlocks` (extension.js
lines 128-154), with the cursor `i` and the mutable `sectionStart` made
explicit.  A non-blank line opens a section if none is open; a blank line
inside an open section closes it only when it heads a run of at least two
blank lines (`blankCount >= 2`), in which case the cursor skips past the
whole run (`i = j - 1; i++`); a section still open at end-of-document is
closed at the last line (`document.lineCount - 1`, which equals `i - 1`
once every line has been consumed). -/
def scanSections : List String → Nat → Option Nat → List Section
  | [], _, none => []
  | [], i, some s => [⟨s, i - 1⟩]
  | l :: ls, i, none =>
    if isEmptyOrWhitespace l then
      scanSections ls (i + 1) none
    else
      scanSections ls (i + 1) (some i)
  | l :: ls, i, some s =>
    if isEmptyOrWhitespace l then
      (if h : 2 ≤ countBlanks (l :: ls) then
        ⟨s, i - 1⟩ :: scanSections ((l :: ls).drop (countBlanks (l :: ls))) (i + countBlanks (l :: ls)) none
      else
        scanSections ls (i + 1) (some s))
    else
      scanSections ls (i + 1) (some s)
termination_by rest _ _ => rest.length
decreasing_by
  · simp
  · simp
  · simp only [List.length_cons, List.length_drop]
    omega
  · simp
  · simp

/-- Embeds `findSourceBlocks` (extension.js lines 118-184): empty for an
unregistered document language; otherwise the whole-file block followed by
one block per section when there are at least two sections. -/
def findSourceBlocks (languageId : String) (lines : List String) : List CodeBlock :=
  if (RUNNERS.lookup languageId).isSome = false then []
  else
    { startLine := 0, endLine := lines.length - 1, languageId := languageId,
      code := String.intercalate "\n" lines, lensLine := 0 } ::
    (if 1 < (scanSections lines 0 none).length then
      (scanSections lines 0 none).map (fun sec =>
        { startLine := sec.start, endLine := sec.stop, languageId := languageId,
          code := String.intercalate "\n" ((lines.drop sec.start).take (sec.stop + 1 - sec.start)),
          lensLine := sec.start })
    else [])

/-- Embeds `findCodeBlocks` (extension.js lines 84-89): dispatch on the document's
language id. -/
def findCodeBlocks (languageId : String) (lines : List String) : List CodeBlock :=
  if languageId = "markdown" then findMarkdownBlocks lines
  else findSourceBlocks languageId lines

/-- Blankness of the document line at index `i` (out-of-range indices read as
the empty line, which never occurs for in-range reasoning). -/
def blankAt (lines : List String) (i : Nat) : Bool :=
  isEmptyOrWhitespace (lines.getD i "")

/-- Modelled from the spec (section 4.2.2 and the C7 claim): index `i` starts
a maximal non-blank section, where only runs of two or more consecutive blank
lines split sections.  That holds when line `i` is non-blank and either no
non-blank line precedes it, or the two lines immediately before it are blank
(so the maximal blank run ending at `i - 1` has length at least two). -/
def isSectionStart (lines : List String) (i : Nat) : Bool :=
  !(blankAt lines i) &&
    (decide (∀ j < i, blankAt lines j = true) ||
     (decide (2 ≤ i) && blankAt lines (i - 1) && blankAt lines (i - 2)))

/-- Modelled from the spec: the number of maximal non-blank sections of the
document under the rule that only runs of two or more blank lines split. -/
def numSections (lines : List String) : Nat :=
  ((List.range lines.length).filter (isSectionStart lines)).length

/-- Section starts at positions `i, i+1, ...` to the end of the document. -/
def startsFrom (lines : List String) (i : Nat) : List Nat :=
  (List.range' i (lines.length - i)).filter (isSectionStart lines)

/-- Scanner-state invariant used in the main induction: with no open section
the cursor sits at the start of the document's leading blanks or just after a
blank run of length at least two; with section `s` open, `s` is a non-blank
line before the cursor, the two lines before the cursor are not both blank,
and the line before the cursor and the cursor line are not both blank
(otherwise the scanner would already have closed the section). -/
def scanPre (lines : List String) (i : Nat) : Option Nat → Prop
  | none => (∀ j < i, blankAt lines j = true) ∨
      (2 ≤ i ∧ blankAt lines (i - 1) = true ∧ blankAt lines (i - 2) = true)
  | some s => s < i ∧ blankAt lines s = false ∧
      ¬(2 ≤ i ∧ blankAt lines (i - 1) = true ∧ blankAt lines (i - 2) = true) ∧
      (blankAt lines (i - 1) = false ∨ lines.length ≤ i ∨ blankAt lines i = false)

/-- Expected list of section starts produced from scanner state `st` at
cursor `i`. -/
def scanStartsSpec (lines : List String) (i : Nat) : Option Nat → List Nat
  | none => startsFrom lines i
  | some s => s :: startsFrom lines i

/-- Lower bound for the start of every section the scanner still emits. -/
def scanLower (i : Nat) : Option Nat → Nat
  | none => i
  | some s => s

lemma getD_drop (lines : List String) (i k : Nat) :
    (lines.drop i).getD k "" = lines.getD (i + k) "" := by
  simp [List.getD_eq_getElem?_getD, List.getElem?_drop]

lemma drop_cons_lt {lines : List String} {i : Nat} {l : String} {ls : List String}
    (h : lines.drop i = l :: ls) : i < lines.length := by
  by_contra hge
  rw [List.drop_eq_nil_of_le (by omega)] at h
  exact List.noConfusion h

lemma drop_cons_getD {lines : List String} {i : Nat} {l : String} {ls : List String}
    (h : lines.drop i = l :: ls) : lines.getD i "" = l := by
  have := getD_drop lines i 0
  rw [h] at this
  simpa using this.symm

lemma drop_cons_tail {lines : List String} {i : Nat} {l : String} {ls : List String}
    (h : lines.drop i = l :: ls) : lines.drop (i + 1) = ls := by
  have : lines.drop (i + 1) = (lines.drop i).drop 1 := by
    rw [List.drop_drop]
  rw [this, h]
  rfl

lemma countBlanks_le (ls : List String) : countBlanks ls ≤ ls.length := by
  induction ls with
  | nil => simp [countBlanks]
  | cons l ls ih =>
    simp only [countBlanks, List.length_cons]
    split
    · omega
    · omega

lemma countBlanks_blank (ls : List String) :
    ∀ j < countBlanks ls, isEmptyOrWhitespace (ls.getD j "") = true := by
  induction ls with
  | nil => simp [countBlanks]
  | cons l ls ih =>
    intro j hj
    simp only [countBlanks] at hj
    by_cases hb : isEmptyOrWhitespace l = true
    · rw [if_pos hb] at hj
      cases j with
      | zero => simpa using hb
      | succ j => exact ih j (by omega)
    · rw [if_neg hb] at hj
      omega

lemma countBlanks_stop (ls : List String) (h : countBlanks ls < ls.length) :
    isEmptyOrWhitespace (ls.getD (countBlanks ls) "") = false := by
  induction ls with
  | nil => simp [countBlanks] at h
  | cons l ls ih =>
    by_cases hb : isEmptyOrWhitespace l = true
    · have hc : countBlanks (l :: ls) = countBlanks ls + 1 := by
        simp [countBlanks, hb]
      rw [hc]
      rw [hc] at h
      exact ih (by simpa using h)
    · have hc : countBlanks (l :: ls) = 0 := by
        simp [countBlanks, hb]
      rw [hc]
      simpa using hb

lemma countBlanks_pos {l : String} {ls : List String}
    (hb : isEmptyOrWhitespace l = true) : 1 ≤ countBlanks (l :: ls) := by
  simp [countBlanks, hb]

lemma countNotClosing_le (ls : List String) : countNotClosing ls ≤ ls.length := by
  induction ls with
  | nil => simp [countNotClosing]
  | cons l ls ih =>
    simp only [countNotClosing, List.length_cons]
    split
    · omega
    · omega

lemma countNotClosing_eq_length {ls : List String}
    (h : ∀ l ∈ ls, startsWithTicks l = false) : countNotClosing ls = ls.length := by
  induction ls with
  | nil => simp [countNotClosing]
  | cons l ls ih =>
    have hl : startsWithTicks l = false := h l (by simp)
    simp [countNotClosing, hl, ih (fun x hx => h x (by simp [hx]))]

lemma isSectionStart_iff (lines : List String) (i : Nat) :
    isSectionStart lines i = true ↔
      blankAt lines i = false ∧
        ((∀ j < i, blankAt lines j = true) ∨
          (2 ≤ i ∧ blankAt lines (i - 1) = true ∧ blankAt lines (i - 2) = true)) := by
  simp only [isSectionStart, Bool.and_eq_true, Bool.or_eq_true, decide_eq_true_eq,
    Bool.not_eq_true']
  tauto

lemma isSectionStart_of_blank {lines : List String} {i : Nat}
    (h : blankAt lines i = true) : isSectionStart lines i = false := by
  simp [isSectionStart, h]

lemma startsFrom_nil {lines : List String} {i : Nat} (h : lines.length ≤ i) :
    startsFrom lines i = [] := by
  unfold startsFrom
  rw [Nat.sub_eq_zero_of_le h]
  rfl

lemma startsFrom_step {lines : List String} {i : Nat} (h : i < lines.length) :
    startsFrom lines i =
      (if isSectionStart lines i = true then i :: startsFrom lines (i + 1)
       else startsFrom lines (i + 1)) := by
  unfold startsFrom
  have hn : lines.length - i = (lines.length - (i + 1)) + 1 := by omega
  rw [hn, List.range'_succ, List.filter_cons]

lemma startsFrom_step_blank {lines : List String} {i : Nat}
    (h : blankAt lines i = true) :
    startsFrom lines i = startsFrom lines (i + 1) := by
  by_cases hi : i < lines.length
  · rw [startsFrom_step hi, if_neg]
    simp [isSectionStart_of_blank h]
  · rw [startsFrom_nil (by omega), startsFrom_nil (by omega)]

lemma startsFrom_skip {lines : List String} (k : Nat) :
    ∀ i, (∀ j, i ≤ j → j < i + k → blankAt lines j = true) →
      startsFrom lines i = startsFrom lines (i + k) := by
  induction k with
  | zero => intro i _; rfl
  | succ k ih =>
    intro i hblank
    have h0 : blankAt lines i = true := hblank i (by omega) (by omega)
    rw [startsFrom_step_blank h0]
    have := ih (i + 1) (fun j h1 h2 => hblank j (by omega) (by omega))
    rw [this]
    congr 1
    omega

lemma blankAt_of_countBlanks {lines : List String} {i j : Nat}
    (hij : i ≤ j) (hj : j < i + countBlanks (lines.drop i)) :
    blankAt lines j = true := by
  have h := countBlanks_blank (lines.drop i) (j - i) (by omega)
  rw [getD_drop] at h
  have heq : i + (j - i) = j := by omega
  rw [heq] at h
  exact h

lemma scan_main_nil {lines : List String} {i : Nat} {st : Option Nat}
    (hnil : lines.drop i = []) (hile : i ≤ lines.length)
    (hpre : scanPre lines i st) :
    (scanSections (lines.drop i) i st).map Section.start = scanStartsSpec lines i st
    ∧ (∀ sec ∈ scanSections (lines.drop i) i st,
        scanLower i st ≤ sec.start ∧ sec.start ≤ sec.stop ∧
        sec.stop < lines.length ∧ blankAt lines sec.start = false ∧
        (blankAt lines sec.stop = true → sec.stop = lines.length - 1))
    ∧ List.Pairwise (fun a b => a.stop < b.start)
        (scanSections (lines.drop i) i st) := by
  have hn : lines.length ≤ i := List.drop_eq_nil_iff.mp hnil
  have hieq : i = lines.length := by omega
  cases st with
  | none =>
    rw [hnil]
    exact ⟨by simp [scanSections, scanStartsSpec, startsFrom_nil hn],
      by simp [scanSections], by simp [scanSections]⟩
  | some s =>
    rw [hnil]
    obtain ⟨hs, hsb, -, -⟩ := hpre
    refine ⟨by simp [scanSections, scanStartsSpec, startsFrom_nil hn], ?_,
      by simp [scanSections]⟩
    intro sec hsec
    simp only [scanSections, List.mem_singleton] at hsec
    subst hsec
    exact ⟨le_refl _, by simp; omega, by simp; omega, hsb, fun _ => by simp; omega⟩

lemma scan_main (lines : List String) :
    ∀ (m i : Nat) (st : Option Nat), (lines.drop i).length ≤ m →
      i ≤ lines.length → scanPre lines i st →
      (scanSections (lines.drop i) i st).map Section.start = scanStartsSpec lines i st
      ∧ (∀ sec ∈ scanSections (lines.drop i) i st,
          scanLower i st ≤ sec.start ∧ sec.start ≤ sec.stop ∧
          sec.stop < lines.length ∧ blankAt lines sec.start = false ∧
          (blankAt lines sec.stop = true → sec.stop = lines.length - 1))
      ∧ List.Pairwise (fun a b => a.stop < b.start)
          (scanSections (lines.drop i) i st) := by
  intro m
  induction m with
  | zero =>
    intro i st hlen hile hpre
    have hnil : lines.drop i = [] := List.length_eq_zero.mp (Nat.le_zero.mp hlen)
    exact scan_main_nil hnil hile hpre
  | succ m ih =>
    intro i st hlen hile hpre
    cases hrest : lines.drop i with
    | nil => exact hrest ▸ scan_main_nil hrest hile hpre
    | cons l ls =>
      have hlt : i < lines.length := drop_cons_lt hrest
      have hgetD : lines.getD i "" = l := drop_cons_getD hrest
      have hblAti : blankAt lines i = isEmptyOrWhitespace l := by
        rw [blankAt, hgetD]
      have htail : lines.drop (i + 1) = ls := drop_cons_tail hrest
      have hlen' : (lines.drop (i + 1)).length ≤ m := by
        rw [htail]
        have : (l :: ls).length ≤ m + 1 := by rw [← hrest]; exact hlen
        simp at this
        omega
      by_cases hbl : isEmptyOrWhitespace l = true
      · -- the cursor line is blank
        cases st with
        | none =>
          have hstep : scanSections (l :: ls) i none = scanSections ls (i + 1) none := by
            simp only [scanSections]
            rw [if_pos hbl]
          have hpre' : scanPre lines (i + 1) none := by
            rcases hpre with hall | ⟨h2, hb1, hb2⟩
            · exact Or.inl (fun j hj => by
                rcases Nat.lt_succ_iff_lt_or_eq.mp hj with hlt' | heq
                · exact hall j hlt'
                · subst heq; rw [hblAti]; exact hbl)
            · refine Or.inr ⟨by omega, ?_, ?_⟩
              · have : i + 1 - 1 = i := by omega
                rw [this, hblAti]; exact hbl
              · have : i + 1 - 2 = i - 1 := by omega
                rw [this]; exact hb1
          have ihc := ih (i + 1) none hlen' (by omega) hpre'
          rw [htail] at ihc
          rw [hstep]
          refine ⟨?_, ?_, ihc.2.2⟩
          · rw [ihc.1]
            simp only [scanStartsSpec]
            exact (startsFrom_step_blank (by rw [hblAti]; exact hbl)).symm ▸ rfl
          · intro sec hsec
            have := ihc.2.1 sec hsec
            simp only [scanLower] at this ⊢
            exact ⟨by omega, this.2⟩
        | some s =>
          obtain ⟨hs, hsb, hN, hJ⟩ := hpre
          have hbi : blankAt lines i = true := by rw [hblAti]; exact hbl
          have hbprev : blankAt lines (i - 1) = false := by
            rcases hJ with h | h | h
            · exact h
            · omega
            · rw [h] at hbi; exact absurd hbi (by simp)
          by_cases h2 : 2 ≤ countBlanks (l :: ls)
          · -- blank run of length at least 2: close the section and skip
            have hstep : scanSections (l :: ls) i (some s) =
                ⟨s, i - 1⟩ :: scanSections ((l :: ls).drop (countBlanks (l :: ls)))
                  (i + countBlanks (l :: ls)) none := by
              simp only [scanSections]
              rw [if_pos hbl, dif_pos h2]
            have hdropbc : (l :: ls).drop (countBlanks (l :: ls)) =
                lines.drop (i + countBlanks (l :: ls)) := by
              rw [← hrest, List.drop_drop]
            have hbcle : countBlanks (l :: ls) ≤ (l :: ls).length := countBlanks_le _
            have hlenls : (l :: ls).length = lines.length - i := by
              rw [← hrest, List.length_drop]
            have hbc' : countBlanks (lines.drop i) = countBlanks (l :: ls) := by
              rw [hrest]
            have hblanks : ∀ j, i ≤ j → j < i + countBlanks (l :: ls) →
                blankAt lines j = true := by
              intro j h1 h1'
              exact blankAt_of_countBlanks h1 (by rw [hbc']; omega)
            have hlen2 : (lines.drop (i + countBlanks (l :: ls))).length ≤ m := by
              rw [← hdropbc]
              have h3 : (l :: ls).length ≤ m + 1 := by rw [← hrest]; exact hlen
              rw [List.length_drop]
              omega
            have hpre2 : scanPre lines (i + countBlanks (l :: ls)) none := by
              refine Or.inr ⟨by omega, ?_, ?_⟩
              · exact hblanks _ (by omega) (by omega)
              · exact hblanks _ (by omega) (by omega)
            have ihc := ih (i + countBlanks (l :: ls)) none hlen2 (by omega) hpre2
            rw [hstep, hdropbc]
            refine ⟨?_, ?_, ?_⟩
            · simp only [List.map_cons, scanStartsSpec]
              rw [ihc.1]
              simp only [scanStartsSpec]
              rw [← startsFrom_skip (countBlanks (l :: ls)) i hblanks]
            · intro sec hsec
              rcases List.mem_cons.mp hsec with hsec | hsec
              · subst hsec
                exact ⟨le_refl _, by simp; omega, by simp; omega, hsb,
                  fun hcontra => by
                    simp only at hcontra
                    rw [hcontra] at hbprev
                    exact absurd hbprev (by simp)⟩
              · have := ihc.2.1 sec hsec
                simp only [scanLower] at this ⊢
                exact ⟨by omega, this.2⟩
            · refine List.Pairwise.cons ?_ ihc.2.2
              intro sec hsec
              have := (ihc.2.1 sec hsec).1
              simp only [scanLower] at this
              simp only
              omega
          · -- a single blank line: the section stays open
            have hstep : scanSections (l :: ls) i (some s) =
                scanSections ls (i + 1) (some s) := by
              simp only [scanSections]
              rw [if_pos hbl, dif_neg h2]
            have hbc1 : countBlanks (l :: ls) = 1 := by
              have h3 : 1 ≤ countBlanks (l :: ls) := countBlanks_pos hbl
              omega
            have hnext : lines.length ≤ i + 1 ∨ blankAt lines (i + 1) = false := by
              rcases ls with _ | ⟨l2, ls2⟩
              · left
                have : lines.drop (i + 1) = [] := htail
                exact List.drop_eq_nil_iff.mp this
              · right
                have hl2 : isEmptyOrWhitespace l2 = false := by
                  by_contra hcon
                  have hl2' : isEmptyOrWhitespace l2 = true := by
                    revert hcon; cases isEmptyOrWhitespace l2 <;> simp
                  have : countBlanks (l :: l2 :: ls2) = countBlanks (l2 :: ls2) + 1 := by
                    simp [countBlanks, hbl]
                  have h4 : 1 ≤ countBlanks (l2 :: ls2) := countBlanks_pos hl2'
                  omega
                have : lines.getD (i + 1) "" = l2 := drop_cons_getD htail
                rw [blankAt, this]
                exact hl2
            have hpre' : scanPre lines (i + 1) (some s) := by
              refine ⟨by omega, hsb, ?_, ?_⟩
              · intro ⟨hge, hc1, hc2⟩
                have : i + 1 - 1 = i := by omega
                rw [this] at hc1
                have : i + 1 - 2 = i - 1 := by omega
                rw [this] at hc2
                rw [hc2] at hbprev
                exact absurd hbprev (by simp)
              · rcases hnext with h | h
                · exact Or.inr (Or.inl h)
                · exact Or.inr (Or.inr h)
            have ihc := ih (i + 1) (some s) hlen' (by omega) hpre'
            rw [htail] at ihc
            rw [hstep]
            refine ⟨?_, ?_, ihc.2.2⟩
            · rw [ihc.1]
              simp only [scanStartsSpec]
              rw [← startsFrom_step_blank hbi]
            · intro sec hsec
              exact ihc.2.1 sec hsec
      · -- the cursor line is non-blank
        have hbl' : isEmptyOrWhitespace l = false := by
          revert hbl; cases isEmptyOrWhitespace l <;> simp
        have hbi : blankAt lines i = false := by rw [hblAti]; exact hbl'
        cases st with
        | none =>
          have hstep : scanSections (l :: ls) i none =
              scanSections ls (i + 1) (some i) := by
            simp only [scanSections]
            rw [if_neg (by simp [hbl'])]
          have hpre' : scanPre lines (i + 1) (some i) := by
            refine ⟨by omega, hbi, ?_, ?_⟩
            · intro ⟨hge, hc1, hc2⟩
              have heq : i + 1 - 1 = i := by omega
              rw [heq] at hc1
              rw [hc1] at hbi
              exact absurd hbi (by simp)
            · left
              have heq : i + 1 - 1 = i := by omega
              rw [heq]
              exact hbi
          have ihc := ih (i + 1) (some i) hlen' (by omega) hpre'
          rw [htail] at ihc
          rw [hstep]
          have hstart : isSectionStart lines i = true := by
            rw [isSectionStart_iff]
            exact ⟨hbi, hpre⟩
          refine ⟨?_, ?_, ihc.2.2⟩
          · rw [ihc.1]
            simp only [scanStartsSpec]
            rw [startsFrom_step hlt, if_pos hstart]
          · intro sec hsec
            have := ihc.2.1 sec hsec
            simp only [scanLower] at this ⊢
            exact ⟨by omega, this.2⟩
        | some s =>
          obtain ⟨hs, hsb, hN, hJ⟩ := hpre
          have hstep : scanSections (l :: ls) i (some s) =
              scanSections ls (i + 1) (some s) := by
            simp only [scanSections]
            rw [if_neg (by simp [hbl'])]
          have hpre' : scanPre lines (i + 1) (some s) := by
            refine ⟨by omega, hsb, ?_, ?_⟩
            · intro ⟨hge, hc1, hc2⟩
              have heq : i + 1 - 1 = i := by omega
              rw [heq] at hc1
              rw [hc1] at hbi
              exact absurd hbi (by simp)
            · left
              have heq : i + 1 - 1 = i := by omega
              rw [heq]
              exact hbi
          have ihc := ih (i + 1) (some s) hlen' (by omega) hpre'
          rw [htail] at ihc
          rw [hstep]
          have hnstart : isSectionStart lines i = false := by
            rw [← Bool.not_eq_true, isSectionStart_iff]
            intro ⟨h1, h2⟩
            rcases h2 with hall | hrun
            · have := hall s hs
              rw [this] at hsb
              exact absurd hsb (by simp)
            · exact hN hrun
          refine ⟨?_, ?_, ihc.2.2⟩
          · rw [ihc.1]
            simp only [scanStartsSpec]
            rw [startsFrom_step hlt, if_neg (by rw [hnstart]; simp)]
          · intro sec hsec
            exact ihc.2.1 sec hsec

lemma sections_map_start (lines : List String) :
    (scanSections lines 0 none).map Section.start =
      (List.range lines.length).filter (isSectionStart lines) := by
  have h := (scan_main lines (lines.drop 0).length 0 none (le_refl _) (by omega)
    (Or.inl (by omega))).1
  simp only [List.drop_zero] at h
  rw [h]
  simp [scanStartsSpec, startsFrom, List.range_eq_range']

lemma sections_length_eq (lines : List String) :
    (scanSections lines 0 none).length = numSections lines := by
  have h := congrArg List.length (sections_map_start lines)
  simpa [numSections] using h

lemma sections_bounds (lines : List String) :
    ∀ sec ∈ scanSections lines 0 none,
      sec.start ≤ sec.stop ∧ sec.stop < lines.length ∧
      blankAt lines sec.start = false ∧
      (blankAt lines sec.stop = true → sec.stop = lines.length - 1) := by
  have h := (scan_main lines (lines.drop 0).length 0 none (le_refl _) (by omega)
    (Or.inl (by omega))).2.1
  simp only [List.drop_zero] at h
  intro sec hsec
  exact (h sec hsec).2

lemma sections_pairwise (lines : List String) :
    List.Pairwise (fun a b => a.stop < b.start) (scanSections lines 0 none) := by
  have h := (scan_main lines (lines.drop 0).length 0 none (le_refl _) (by omega)
    (Or.inl (by omega))).2.2
  simpa using h

lemma mdScan_main :
    ∀ (m : Nat) (rest : List String) (i : Nat), rest.length ≤ m →
      (∀ b ∈ mdScan rest i, i ≤ b.lensLine ∧ b.lensLine + 1 = b.startLine ∧
        b.startLine ≤ b.endLine ∧ b.endLine + 1 ≤ i + rest.length)
      ∧ List.Pairwise (fun a b => a.endLine < b.lensLine ∧ a.startLine < b.startLine)
          (mdScan rest i) := by
  intro m
  induction m with
  | zero =>
    intro rest i hlen
    have hnil : rest = [] := List.length_eq_zero.mp (Nat.le_zero.mp hlen)
    subst hnil
    simp [mdScan]
  | succ m ih =>
    intro rest i hlen
    cases rest with
    | nil => simp [mdScan]
    | cons l ls =>
      have hlsle : ls.length ≤ m := by simp at hlen; omega
      by_cases hof : isOpenFence l = true
      · have hstep : mdScan (l :: ls) i =
            (if 1 ≤ countNotClosing ls ∧
                (RUNNERS.lookup (normalizeLangId
                  ((detectMarkdownLang l).getD "shellscript"))).isSome = true then
              [{ startLine := i + 1, endLine := i + countNotClosing ls,
                 languageId := normalizeLangId ((detectMarkdownLang l).getD "shellscript"),
                 code := String.intercalate "\n" (ls.take (countNotClosing ls)),
                 lensLine := i }]
            else []) ++ mdScan (ls.drop (countNotClosing ls + 1))
              (i + countNotClosing ls + 2) := by
          simp only [mdScan]
          rw [if_pos hof]
        have hkle : countNotClosing ls ≤ ls.length := countNotClosing_le ls
        have ihc := ih (ls.drop (countNotClosing ls + 1)) (i + countNotClosing ls + 2)
          (by rw [List.length_drop]; omega)
        have htailb : ∀ b ∈ mdScan (ls.drop (countNotClosing ls + 1))
            (i + countNotClosing ls + 2),
            i + countNotClosing ls + 2 ≤ b.lensLine ∧ b.lensLine + 1 = b.startLine ∧
            b.startLine ≤ b.endLine ∧ b.endLine + 1 ≤ i + (l :: ls).length := by
          intro b hb
          have h1 := ihc.1 b hb
          by_cases hk : countNotClosing ls + 1 ≤ ls.length
          · refine ⟨h1.1, h1.2.1, h1.2.2.1, ?_⟩
            have h2 := h1.2.2.2
            rw [List.length_drop] at h2
            simp only [List.length_cons]
            omega
          · have : ls.drop (countNotClosing ls + 1) = [] :=
              List.drop_eq_nil_of_le (by omega)
            rw [this] at hb
            simp [mdScan] at hb
        rw [hstep]
        by_cases hcond : 1 ≤ countNotClosing ls ∧
            (RUNNERS.lookup (normalizeLangId
              ((detectMarkdownLang l).getD "shellscript"))).isSome = true
        · rw [if_pos hcond]
          constructor
          · intro b hb
            rcases List.mem_append.mp hb with hb | hb
            · rw [List.mem_singleton] at hb
              subst hb
              refine ⟨le_refl _, rfl, by simp; omega, ?_⟩
              simp only [List.length_cons]
              omega
            · have := htailb b hb
              exact ⟨by omega, this.2⟩
          · rw [List.singleton_append]
            refine List.Pairwise.cons ?_ ihc.2
            intro b hb
            have h1 := htailb b hb
            constructor
            · simp only
              omega
            · simp only
              omega
        · rw [if_neg hcond]
          rw [List.nil_append]
          refine ⟨?_, ihc.2⟩
          intro b hb
          have := htailb b hb
          exact ⟨by omega, this.2⟩
      · have hstep : mdScan (l :: ls) i = mdScan ls (i + 1) := by
          simp only [mdScan]
          rw [if_neg hof]
        rw [hstep]
        have ihc := ih ls (i + 1) hlsle
        refine ⟨?_, ihc.2⟩
        intro b hb
        have := ihc.1 b hb
        refine ⟨by omega, this.2.1, this.2.2.1, ?_⟩
        simp only [List.length_cons]
        omega

lemma char_ofNat_toNat_of_valid {n : Nat} (h : n.isValidChar) :
    (Char.ofNat n).toNat = n := by
  rw [Char.ofNat, dif_pos h]
  rfl

lemma char_toLower_idem (c : Char) : c.toLower.toLower = c.toLower := by
  show Char.toLower (Char.toLower c) = Char.toLower c
  unfold Char.toLower
  by_cases h : c.toNat ≥ 65 ∧ c.toNat ≤ 90
  · rw [if_pos h]
    have hval : (c.toNat + 32).isValidChar := Or.inl (by omega)
    rw [char_ofNat_toNat_of_valid hval]
    rw [if_neg (by omega)]
  · rw [if_neg h, if_neg h]

lemma toLowerCase_idem (s : String) :
    toLowerCase (toLowerCase s) = toLowerCase s := by
  unfold toLowerCase
  have hdata : (String.mk (s.toList.map Char.toLower)).toList =
      s.toList.map Char.toLower := rfl
  rw [hdata, List.map_map]
  congr 1
  apply List.map_congr_left
  intro c _
  exact char_toLower_idem c

/-- C4: the language resolver realized by the source (the `.toLowerCase()`
inside `detectMarkdownLang` composed with `normalizeLangId`) is a total
function — totality is immediate since `resolveTag` is a Lean function — that
lower-cases its input and looks the lower-cased form up in the alias table,
returning the alias entry when present and otherwise the lower-cased input
unchanged (the `getD` fallback); it never fails, including on the empty
string, and its value on any input equals its value on the lower-cased
input. -/
theorem c4_language_resolver_total (rawTag : String) :
    resolveTag rawTag = (aliases.lookup (toLowerCase rawTag)).getD (toLowerCase rawTag)
    ∧ resolveTag (toLowerCase rawTag) = resolveTag rawTag
    ∧ resolveTag "" = "" := by
  refine ⟨rfl, ?_, by decide⟩
  unfold resolveTag
  rw [toLowerCase_idem]

/-- C8: for every plain document whose language identifier is not a key of
the runner mapping, detection returns the empty sequence regardless of the
document content (the guard at extension.js lines 122-124). -/
theorem c8_unsupported_language_empty (languageId : String) (lines : List String)
    (h : (RUNNERS.lookup languageId).isSome = false) :
    findSourceBlocks languageId lines = [] := by
  unfold findSourceBlocks
  rw [if_pos h]

/-- Witness for C8 at the concrete unsupported language `plaintext`. -/
theorem c8_witness :
    (RUNNERS.lookup "plaintext").isSome = false ∧
      findSourceBlocks "plaintext" ["console.log(1)", "x"] = [] :=
  ⟨by decide, c8_unsupported_language_empty "plaintext" _ (by decide)⟩

/-- C6: for every plain document with registered language, the detection
result starts with the whole-file block: `startLine = 0`,
`endLine = lineCount - 1`, anchor (`lensLine`) `0`, and code equal to all
document lines joined with a newline; in particular the result is always
non-empty, even for a single-line empty document. -/
theorem c6_whole_file_block_first (languageId : String) (lines : List String)
    (hsup : (RUNNERS.lookup languageId).isSome = true) (_hne : lines ≠ []) :
    (findSourceBlocks languageId lines).head? =
      some { startLine := 0, endLine := lines.length - 1, languageId := languageId,
             code := String.intercalate "\n" lines, lensLine := 0 } := by
  unfold findSourceBlocks
  rw [if_neg (by simp [hsup])]
  rfl

/-- Witness for C6 at a single-line empty python document. -/
theorem c6_witness :
    (RUNNERS.lookup "python").isSome = true ∧ ([""] ≠ ([] : List String)) ∧
      (findSourceBlocks "python" [""]).head? =
        some { startLine := 0, endLine := 0, languageId := "python", code := "",
               lensLine := 0 } :=
  ⟨by decide, by decide, c6_whole_file_block_first "python" [""] (by decide) (by decide)⟩

/-- C9: in a tagged (markdown) document the emitted blocks are pairwise
disjoint and strictly ordered: for any two blocks in output order the
earlier block's `endLine` is below the later block's anchor (`lensLine`),
and `startLine` is strictly increasing; hence no document line lies in the
`[lensLine, endLine]` span of two different blocks. -/
theorem c9_markdown_blocks_disjoint_ordered (lines : List String) :
    List.Pairwise (fun a b => a.endLine < b.lensLine ∧ a.startLine < b.startLine)
      (findMarkdownBlocks lines) :=
  (mdScan_main lines.length lines 0 (le_refl _)).2

/-- C5: in every document with at least one line, every detected block
satisfies `anchorLine ≤ startLine ≤ endLine ≤ lastLineIndex` (the lower
bound `0 ≤ startLine` is automatic for natural numbers). -/
theorem c5_block_line_invariants (languageId : String) (lines : List String)
    (hne : lines ≠ []) :
    ∀ b ∈ findCodeBlocks languageId lines,
      b.lensLine ≤ b.startLine ∧ b.startLine ≤ b.endLine ∧
        b.endLine ≤ lines.length - 1 := by
  intro b hb
  have hlen : 1 ≤ lines.length := List.length_pos.mpr hne
  unfold findCodeBlocks at hb
  by_cases hmd : languageId = "markdown"
  · rw [if_pos hmd] at hb
    have h := (mdScan_main lines.length lines 0 (le_refl _)).1 b hb
    exact ⟨by omega, h.2.2.1, by omega⟩
  · rw [if_neg hmd] at hb
    unfold findSourceBlocks at hb
    by_cases hsup : (RUNNERS.lookup languageId).isSome = false
    · rw [if_pos hsup] at hb
      exact absurd hb (List.not_mem_nil b)
    · rw [if_neg hsup] at hb
      rcases List.mem_cons.mp hb with rfl | hb
      · exact ⟨by simp, by simp, by simp⟩
      · by_cases hmult : 1 < (scanSections lines 0 none).length
        · rw [if_pos hmult] at hb
          obtain ⟨sec, hsec, rfl⟩ := List.mem_map.mp hb
          have h := sections_bounds lines sec hsec
          refine ⟨le_refl _, ?_, ?_⟩
          · simp only
            omega
          · simp only
            omega
        · rw [if_neg hmult] at hb
          exact absurd hb (List.not_mem_nil b)

/-- Witness for C5 at the one-line python document `["a"]` and its
whole-file block. -/
theorem c5_witness :
    (["a"] ≠ ([] : List String)) ∧
    ({ startLine := 0, endLine := 0, languageId := "python", code := "a",
       lensLine := 0 } : CodeBlock) ∈ findCodeBlocks "python" ["a"] ∧
    ((0 : Nat) ≤ 0 ∧ (0 : Nat) ≤ 0 ∧ (0 : Nat) ≤ (["a"] : List String).length - 1) := by
  have hmem : ({ startLine := 0, endLine := 0, languageId := "python", code := "a",
                 lensLine := 0 } : CodeBlock) ∈ findCodeBlocks "python" ["a"] := by
    simp +decide [findCodeBlocks, findSourceBlocks, scanSections]
  exact ⟨by decide, hmem, c5_block_line_invariants "python" ["a"] (by decide) _ hmem⟩

/-- C1 counterexample: the claim says an unterminated fence yields no block,
but on `["(three backticks)python", "print(1)"]` — an opening fence never
followed by a line beginning with three backticks — the source emits a block
reaching end-of-document, because after the inner `while` exits at
`i = lineCount` the code still takes `endLine = lineCount - 1` and the push
guard `endLine >= startLine` holds. -/
theorem c1_counterexample :
    findMarkdownBlocks ["```python", "print(1)"] =
      [{ startLine := 1, endLine := 1, languageId := "python", code := "print(1)",
         lensLine := 0 }] := by
  simp +decide [findMarkdownBlocks, mdScan, countNotClosing]

/-- C1 as amended: a document consisting of an opening fence followed only by
lines that do not begin with three backticks is treated as implicitly closed
at end-of-document: whenever the fenced content is non-empty and the resolved
language is registered, exactly one block is emitted spanning from the line
after the fence to the last document line. -/
theorem c1_unterminated_fence_implicitly_closed (l : String) (body : List String)
    (hopen : isOpenFence l = true)
    (hnoclose : ∀ b ∈ body, startsWithTicks b = false)
    (hne : body ≠ [])
    (hsup : (RUNNERS.lookup (normalizeLangId
      ((detectMarkdownLang l).getD "shellscript"))).isSome = true) :
    findMarkdownBlocks (l :: body) =
      [{ startLine := 1, endLine := body.length,
         languageId := normalizeLangId ((detectMarkdownLang l).getD "shellscript"),
         code := String.intercalate "\n" body, lensLine := 0 }] := by
  have hk : countNotClosing body = body.length := countNotClosing_eq_length hnoclose
  have h1 : 1 ≤ countNotClosing body := by
    rw [hk]
    exact List.length_pos.mpr hne
  unfold findMarkdownBlocks
  simp only [mdScan]
  rw [if_pos hopen, if_pos ⟨h1, hsup⟩, hk]
  rw [List.drop_eq_nil_of_le (by omega)]
  simp only [mdScan, List.append_nil, List.take_length, Nat.zero_add]

/-- Witness for C1 at a concrete unterminated javascript fence. -/
theorem c1_witness :
    isOpenFence "```js" = true ∧ startsWithTicks "const x = 1" = false ∧
      findMarkdownBlocks ["```js", "const x = 1"] =
        [{ startLine := 1, endLine := 1, languageId := "javascript",
           code := "const x = 1", lensLine := 0 }] := by
  refine ⟨by decide, by decide, ?_⟩
  have h := c1_unterminated_fence_implicitly_closed "```js" ["const x = 1"]
    (by decide) (by decide) (by decide) (by decide)
  simpa using h

/-- C2 counterexample: the claim says the document
`["(three backticks)", "echo hi", "(three backticks)"]` yields one
shellscript block, but the source emits nothing: the opening-fence test
requires a word character right after the backticks, so a bare fence never
opens a block. -/
theorem c2_counterexample :
    findMarkdownBlocks ["```", "echo hi", "```"] = [] := by
  simp +decide [findMarkdownBlocks, mdScan, countNotClosing]

/-- C2 as amended: a line of three backticks with no word character after
them never opens a fence, so a document none of whose lines passes the
opening-fence test yields no blocks at all; in particular the `shellscript`
default written in the source is unreachable for bare fences. -/
theorem c2_bare_fence_opens_no_block (lines : List String)
    (h : ∀ l ∈ lines, isOpenFence l = false) :
    findMarkdownBlocks lines = [] := by
  unfold findMarkdownBlocks
  suffices h2 : ∀ (ls : List String), (∀ l ∈ ls, isOpenFence l = false) →
      ∀ i, mdScan ls i = [] from h2 lines h 0
  intro ls hls
  induction ls with
  | nil => intro i; simp [mdScan]
  | cons l ls ih =>
    intro i
    have hl : isOpenFence l = false := hls l (by simp)
    simp only [mdScan]
    rw [if_neg (by simp [hl])]
    exact ih (fun x hx => hls x (by simp [hx])) (i + 1)

/-- Witness for C2 at the concrete bare-fence document of the claim. -/
theorem c2_witness :
    isOpenFence "```" = false ∧ isOpenFence "echo hi" = false ∧
      findMarkdownBlocks ["```", "echo hi", "```"] = [] :=
  ⟨by decide, by decide, c2_bare_fence_opens_no_block _ (by decide)⟩

/-- C3 counterexample: the claim says every section block's `endLine` line is
non-blank and no section block reaches past the last non-blank line, but on
`["a", "", "", "b", ""]` the final section block spans lines 3-4, and line 4
(the single trailing blank line, after the last non-blank line 3) is blank. -/
theorem c3_counterexample :
    ({ startLine := 3, endLine := 4, languageId := "python", code := "b\n",
       lensLine := 3 } : CodeBlock) ∈
        (findSourceBlocks "python" ["a", "", "", "b", ""]).tail ∧
    blankAt ["a", "", "", "b", ""] 4 = true ∧
    blankAt ["a", "", "", "b", ""] 3 = false := by
  refine ⟨?_, by decide, by decide⟩
  simp +decide [findSourceBlocks, scanSections, countBlanks]

/-- C3 as amended: a section block never starts on a blank line (so no
leading blank line of the document belongs to a section block), and its
`endLine` line can be blank only when it is the very last line of the
document — the one case the original claim misses: a document ending in a
single blank line includes that line in its final section. -/
theorem c3_section_boundary_blanks (languageId : String) (lines : List String) :
    ∀ b ∈ (findSourceBlocks languageId lines).tail,
      blankAt lines b.startLine = false ∧
        (blankAt lines b.endLine = true → b.endLine = lines.length - 1) := by
  intro b hb
  unfold findSourceBlocks at hb
  by_cases hsup : (RUNNERS.lookup languageId).isSome = false
  · rw [if_pos hsup] at hb
    simp at hb
  · rw [if_neg hsup] at hb
    rw [List.tail_cons] at hb
    by_cases hmult : 1 < (scanSections lines 0 none).length
    · rw [if_pos hmult] at hb
      obtain ⟨sec, hsec, rfl⟩ := List.mem_map.mp hb
      have h := sections_bounds lines sec hsec
      exact ⟨h.2.2.1, h.2.2.2⟩
    · rw [if_neg hmult] at hb
      simp at hb

/-- Witness for C3 at a concrete two-section python document. -/
theorem c3_witness :
    ({ startLine := 0, endLine := 0, languageId := "python", code := "a",
       lensLine := 0 } : CodeBlock) ∈
        (findSourceBlocks "python" ["a", "", "", "b"]).tail ∧
    (blankAt ["a", "", "", "b"] 0 = false ∧
      (blankAt ["a", "", "", "b"] 0 = true →
        (0 : Nat) = (["a", "", "", "b"] : List String).length - 1)) := by
  have hmem : ({ startLine := 0, endLine := 0, languageId := "python", code := "a",
                 lensLine := 0 } : CodeBlock) ∈ (findSourceBlocks "python" ["a", "", "", "b"]).tail := by
    simp +decide [findSourceBlocks, scanSections, countBlanks]
  exact ⟨hmem, c3_section_boundary_blanks "python" _ _ hmem⟩

/-- C7: for a plain document with registered language, section blocks are
present (the result has a non-empty tail after the whole-file block) exactly
when the document has at least two maximal non-blank sections in the sense of
the spec (`numSections`, where only blank runs of length at least two
split); and the section blocks follow the whole-file block in document
order (strictly increasing, pairwise disjoint line ranges). -/
theorem c7_section_blocks_iff_two_sections (languageId : String) (lines : List String)
    (hsup : (RUNNERS.lookup languageId).isSome = true) :
    ((findSourceBlocks languageId lines).tail ≠ [] ↔ 2 ≤ numSections lines) ∧
    List.Chain' (fun a b => a.endLine < b.startLine)
      ((findSourceBlocks languageId lines).tail) := by
  have hlen := sections_length_eq lines
  unfold findSourceBlocks
  rw [if_neg (by simp [hsup]), List.tail_cons]
  constructor
  · by_cases hmult : 1 < (scanSections lines 0 none).length
    · rw [if_pos hmult]
      constructor
      · intro _
        omega
      · intro _
        intro hcon
        have hc := congrArg List.length hcon
        rw [List.length_map, List.length_nil] at hc
        omega
    · rw [if_neg hmult]
      constructor
      · intro hcon
        exact absurd rfl hcon
      · intro hge
        exact absurd hge (by omega)
  · by_cases hmult : 1 < (scanSections lines 0 none).length
    · rw [if_pos hmult]
      refine List.Pairwise.chain' ?_
      refine List.Pairwise.map _ ?_ (sections_pairwise lines)
      intro a b hab
      simpa using hab
    · rw [if_neg hmult]
      exact List.chain'_nil

/-- Witness for C7 at a concrete two-section python document. -/
theorem c7_witness :
    (RUNNERS.lookup "python").isSome = true ∧
    (((findSourceBlocks "python" ["a", "", "", "b"]).tail ≠ [] ↔
        2 ≤ numSections ["a", "", "", "b"]) ∧
      List.Chain' (fun a b => a.endLine < b.startLine)
        ((findSourceBlocks "python" ["a", "", "", "b"]).tail)) :=
  ⟨by decide, c7_section_blocks_iff_two_sections "python" _ (by decide)⟩

/-- C10: for a plain document with registered language the result length is
never exactly 2: it is 1 when the document has at most one section, and
`numSections + 1 ≥ 3` when it has two or more. -/
theorem c10_result_length_never_two (languageId : String) (lines : List String)
    (hsup : (RUNNERS.lookup languageId).isSome = true) :
    (numSections lines ≤ 1 → (findSourceBlocks languageId lines).length = 1) ∧
    (2 ≤ numSections lines →
      (findSourceBlocks languageId lines).length = numSections lines + 1 ∧
        3 ≤ (findSourceBlocks languageId lines).length) ∧
    (findSourceBlocks languageId lines).length ≠ 2 := by
  have hlen := sections_length_eq lines
  unfold findSourceBlocks
  rw [if_neg (by simp [hsup])]
  by_cases hmult : 1 < (scanSections lines 0 none).length
  · rw [if_pos hmult]
    simp only [List.length_cons, List.length_map]
    refine ⟨fun hle => by omega, fun hge => ⟨by omega, by omega⟩, by omega⟩
  · rw [if_neg hmult]
    simp only [List.length_cons, List.length_nil]
    refine ⟨fun hle => by trivial, fun hge => absurd hge (by omega), by omega⟩

/-- Witness for C10 at the one-section python document `["a"]`. -/
theorem c10_witness :
    (RUNNERS.lookup "python").isSome = true ∧
    ((numSections ["a"] ≤ 1 → (findSourceBlocks "python" ["a"]).length = 1) ∧
      (2 ≤ numSections ["a"] →
        (findSourceBlocks "python" ["a"]).length = numSections ["a"] + 1 ∧
          3 ≤ (findSourceBlocks "python" ["a"]).length) ∧
      (findSourceBlocks "python" ["a"]).length ≠ 2) :=
  ⟨by decide, c10_result_length_never_two "python" ["a"] (by decide)⟩

end RunCodeBlock
